import Mathlib

/-! tiny-compiler: the abstract syntax tree of `ast.c`

A shallow embedding of the node constructors, of `is_leaf`, of `traverse_tree`
and of `free_ast_tree`, followed by theorems about the order in which a
traversal calls the code generator and about what a destruction pass frees.

Side effects are made explicit: a function that calls the code generator,
prints on `stderr` or calls `free` returns the list of those calls in the
order in which the C code performs them.
-/

namespace TinyCompiler

/-- Handle of a symbol-table entry (`symrec *`). The tree stores and forwards
it and never looks inside. -/
abbrev Symrec := Nat

/-- Modelled from the spec: the header `ast.h`, which gives the discriminant
constants their values, is missing. The sixteen constants that `ast.c` names
are kept as sixteen distinct tags (a C `switch` needs distinct case labels),
and `other v` stands for an `int` value `v` that is none of them. -/
inductive NodeType
  | NUMBER_NODE
  | SYMBOL_REFERENCE_NODE
  | SYMBOL_DECLARATION_NODE
  | ASSIGNMENT_NODE
  | FUNCTION_NODE
  | FUNCTION_DEF_NODE
  | WHILE_NODE
  | LIST_NODE
  | UMINUS_NODE
  | BNEG_NODE
  | LNEG_NODE
  | ADD_NODE
  | SUB_NODE
  | MUL_NODE
  | DIV_NODE
  | MOD_NODE
  | other (v : Int)
  deriving DecidableEq, Repr

/-- A value of type `ast_node *`: either `NULL` or a node allocated by one of
the constructors of `ast.c`, one shape per C struct. The field `p` is the
address `malloc` returned, the identity of the node. Children are owned
subtrees, so ownership is tree-shaped by construction.

Modelled from the spec: the struct declarations of `ast.h` are missing. Each
struct is given the fields its constructor initialises, in that order after
`node_type`. The special structs carry the discriminant their constructor
stores; only the plain `ast_node` carries a discriminant chosen by the caller.
`free_ast_tree` reads a `WHILE_NODE` through the plain struct, so `condition`
and `while_branch` are read as `left` and `right` (the two subtrees of the
RepeatBlock row of the data model). -/
inductive AstNode
  | null
  | ast_node (p : Nat) (node_type : NodeType) (left right : AstNode)
  | ast_assignment_node (p : Nat) (symbol : Symrec) (value : AstNode)
  | ast_number_node (p : Nat) (value : Int)
  | ast_symbol_reference_node (p : Nat) (symbol : Symrec)
  | ast_symbol_declaration_node (p : Nat) (symbol : Symrec)
  | ast_function_node (p : Nat) (symbol : Symrec) (arguments : AstNode)
  | ast_function_def_node (p : Nat) (symbol : Symrec) (arguments body : AstNode)
  | ast_while_node (p : Nat) (condition while_branch : AstNode)
  deriving DecidableEq, Repr

open NodeType AstNode

/-- The field `node->node_type`; `none` for `NULL`, which has no fields. -/
def AstNode.node_type : AstNode → Option NodeType
  | null => none
  | ast_node _ ty _ _ => some ty
  | ast_assignment_node _ _ _ => some ASSIGNMENT_NODE
  | ast_number_node _ _ => some NUMBER_NODE
  | ast_symbol_reference_node _ _ => some SYMBOL_REFERENCE_NODE
  | ast_symbol_declaration_node _ _ => some SYMBOL_DECLARATION_NODE
  | ast_function_node _ _ _ => some FUNCTION_NODE
  | ast_function_def_node _ _ _ _ => some FUNCTION_DEF_NODE
  | ast_while_node _ _ _ => some WHILE_NODE

/-- The address of a node; `none` for `NULL`. -/
def AstNode.addr : AstNode → Option Nat
  | null => none
  | ast_node p _ _ _ => some p
  | ast_assignment_node p _ _ => some p
  | ast_number_node p _ => some p
  | ast_symbol_reference_node p _ => some p
  | ast_symbol_declaration_node p _ => some p
  | ast_function_node p _ _ => some p
  | ast_function_def_node p _ _ _ => some p
  | ast_while_node p _ _ => some p

/-! ## Constructors (`ast.c`, lines 16-101)

Each takes as first argument the address `p` that its `malloc` call returns. -/

/-- `new_ast_node(node_type, left, right)`. -/
def new_ast_node (p : Nat) (node_type : NodeType) (left right : AstNode) : AstNode :=
  ast_node p node_type left right

/-- `new_ast_assignment_node(symbol, value)`. -/
def new_ast_assignment_node (p : Nat) (symbol : Symrec) (value : AstNode) : AstNode :=
  ast_assignment_node p symbol value

/-- `new_ast_number_node(value)`. -/
def new_ast_number_node (p : Nat) (value : Int) : AstNode :=
  ast_number_node p value

/-- `new_ast_symbol_reference_node(symbol)`. -/
def new_ast_symbol_reference_node (p : Nat) (symbol : Symrec) : AstNode :=
  ast_symbol_reference_node p symbol

/-- `new_ast_symbol_declaration_node(symbol)`. -/
def new_ast_symbol_declaration_node (p : Nat) (symbol : Symrec) : AstNode :=
  ast_symbol_declaration_node p symbol

/-- `new_ast_function_node(symbol, arguments)`. -/
def new_ast_function_node (p : Nat) (symbol : Symrec) (arguments : AstNode) : AstNode :=
  ast_function_node p symbol arguments

/-- `new_ast_function_def_node(symbol, arguments, body)`. -/
def new_ast_function_def_node (p : Nat) (symbol : Symrec) (arguments body : AstNode) :
    AstNode :=
  ast_function_def_node p symbol arguments body

/-- `new_ast_while_node(condition, while_branch)`. -/
def new_ast_while_node (p : Nat) (condition while_branch : AstNode) : AstNode :=
  ast_while_node p condition while_branch

/-! ## Observable effects -/

/-- One observable side effect of the tree walker: a call into the code
generator (`codegen.h`) with the node passed, a diagnostic line on `stderr`
with the discriminant printed by `%c`, a call of `free` on a node, or a read
of a field that lies outside the object allocated for the node. -/
inductive Effect
  | eval_leaf (node : AstNode)
  | make_assignment (node : AstNode)
  | make_function_call (node : AstNode)
  | make_function (node : AstNode)
  | make_unary_op (node : AstNode)
  | make_binary_op (node : AstNode)
  /-- The line "Error processing node of invalid type: %c" of `is_leaf`. -/
  | invalid_type (node_type : NodeType)
  /-- The line "Error freeing ast_node of type %c" of `free_ast_tree`. -/
  | error_freeing (node_type : NodeType)
  | free (node : AstNode)
  /-- The read of `node->body` through a cast to `ast_function_def_node` on a
  node that was allocated as a plain `ast_node`, which has no such field: the
  read is past the `sizeof(ast_node)` bytes of the allocation. From this event
  on the behaviour of the C program is undefined (in practice it crashes in the
  recursive call on the value read); the effects listed after it say what the
  statements that follow would do and are not a claim about the run. -/
  | out_of_bounds_read (node : AstNode)
  deriving DecidableEq, Repr

open Effect

/-- Whether an effect is a call into the code generator (an emission). -/
def Effect.isEmission : Effect → Bool
  | eval_leaf _ => true
  | make_assignment _ => true
  | make_function_call _ => true
  | make_function _ => true
  | make_unary_op _ => true
  | make_binary_op _ => true
  | invalid_type _ => false
  | error_freeing _ => false
  | free _ => false
  | out_of_bounds_read _ => false

/-- Whether an effect is a read outside an allocation. -/
def Effect.isOutOfBounds : Effect → Bool
  | out_of_bounds_read _ => true
  | _ => false

/-- A run that stays inside its allocations: no effect of the trace is a read
outside an allocation, so the behaviour of the C program is defined throughout. -/
def in_bounds (trace : List Effect) : Bool :=
  trace.all fun e => !e.isOutOfBounds

/-! ## `is_leaf` (`ast.c`, lines 227-261) -/

/-- The function `is_leaf`: the boolean it returns and what it prints. -/
def is_leaf (node : AstNode) : Bool × List Effect :=
  match node.node_type with
  | none => (false, [])
  | some SYMBOL_DECLARATION_NODE => (true, [])
  | some SYMBOL_REFERENCE_NODE => (true, [])
  | some NUMBER_NODE => (true, [])
  | some ASSIGNMENT_NODE => (false, [])
  | some UMINUS_NODE => (false, [])
  | some BNEG_NODE => (false, [])
  | some LNEG_NODE => (false, [])
  | some FUNCTION_NODE => (false, [])
  | some FUNCTION_DEF_NODE => (false, [])
  | some WHILE_NODE => (false, [])
  | some LIST_NODE => (false, [])
  | some ADD_NODE => (false, [])
  | some SUB_NODE => (false, [])
  | some MUL_NODE => (false, [])
  | some DIV_NODE => (false, [])
  | some MOD_NODE => (false, [])
  | some (other v) => (false, [invalid_type (other v)])

/-! ## `traverse_tree` (`ast.c`, lines 165-224) -/

/-- The `switch` of `traverse_tree` for a node allocated as a plain `ast_node`,
given the traces `tl` and `tr` of the recursive calls on `tree->left` and
`tree->right` should the case make them. The case `ASSIGNMENT_NODE` casts the
plain struct to `ast_assignment_node` and reads the second pointer field
(`right`) as `value`. The case `FUNCTION_DEF_NODE` casts it to
`ast_function_def_node`, calls `make_function` and then reads `node->body`
(line 196), a third pointer field that the plain struct does not have. -/
def traverse_switch (tree : AstNode) (ty : NodeType) (tl tr : List Effect) : List Effect :=
  match ty with
  | ASSIGNMENT_NODE => tr ++ [make_assignment tree]
  | FUNCTION_NODE => [make_function_call tree]
  | FUNCTION_DEF_NODE => [make_function tree, out_of_bounds_read tree]
  | WHILE_NODE => []
  | UMINUS_NODE => tl ++ [make_unary_op tree]
  | BNEG_NODE => tl ++ [make_unary_op tree]
  | LNEG_NODE => tl ++ [make_unary_op tree]
  | ADD_NODE => tl ++ tr ++ [make_binary_op tree]
  | SUB_NODE => tl ++ tr ++ [make_binary_op tree]
  | MUL_NODE => tl ++ tr ++ [make_binary_op tree]
  | DIV_NODE => tl ++ tr ++ [make_binary_op tree]
  | MOD_NODE => tl ++ tr ++ [make_binary_op tree]
  -- no case label: the switch falls out without doing anything
  | NUMBER_NODE => []
  | SYMBOL_REFERENCE_NODE => []
  | SYMBOL_DECLARATION_NODE => []
  | LIST_NODE => []
  | other _ => []

/-- The function `traverse_tree`: the effects of the traversal, in order. Every
non-`NULL` node is first classified by `is_leaf` (whose output comes first),
then either passed to `eval_leaf` or dispatched by the `switch`. -/
def traverse_tree : AstNode → List Effect
  | null => []
  | ast_node p ty left right =>
      (is_leaf (ast_node p ty left right)).2 ++
        if (is_leaf (ast_node p ty left right)).1 then [eval_leaf (ast_node p ty left right)]
        else traverse_switch (ast_node p ty left right) ty
          (traverse_tree left) (traverse_tree right)
  | ast_assignment_node p symbol value =>
      (is_leaf (ast_assignment_node p symbol value)).2 ++
        if (is_leaf (ast_assignment_node p symbol value)).1 then
          [eval_leaf (ast_assignment_node p symbol value)]
        else traverse_tree value ++ [make_assignment (ast_assignment_node p symbol value)]
  | ast_number_node p value =>
      (is_leaf (ast_number_node p value)).2 ++
        if (is_leaf (ast_number_node p value)).1 then [eval_leaf (ast_number_node p value)]
        else []
  | ast_symbol_reference_node p symbol =>
      (is_leaf (ast_symbol_reference_node p symbol)).2 ++
        if (is_leaf (ast_symbol_reference_node p symbol)).1 then
          [eval_leaf (ast_symbol_reference_node p symbol)]
        else []
  | ast_symbol_declaration_node p symbol =>
      (is_leaf (ast_symbol_declaration_node p symbol)).2 ++
        if (is_leaf (ast_symbol_declaration_node p symbol)).1 then
          [eval_leaf (ast_symbol_declaration_node p symbol)]
        else []
  | ast_function_node p symbol arguments =>
      (is_leaf (ast_function_node p symbol arguments)).2 ++
        if (is_leaf (ast_function_node p symbol arguments)).1 then
          [eval_leaf (ast_function_node p symbol arguments)]
        else [make_function_call (ast_function_node p symbol arguments)]
  | ast_function_def_node p symbol arguments body =>
      (is_leaf (ast_function_def_node p symbol arguments body)).2 ++
        if (is_leaf (ast_function_def_node p symbol arguments body)).1 then
          [eval_leaf (ast_function_def_node p symbol arguments body)]
        else [make_function (ast_function_def_node p symbol arguments body)] ++
          traverse_tree body
  | ast_while_node p condition while_branch =>
      (is_leaf (ast_while_node p condition while_branch)).2 ++
        if (is_leaf (ast_while_node p condition while_branch)).1 then
          [eval_leaf (ast_while_node p condition while_branch)]
        else []

/-- The emission trace of a traversal: the calls into the code generator, in
order, without the diagnostics. -/
def emissions (tree : AstNode) : List Effect :=
  (traverse_tree tree).filter Effect.isEmission

/-! ## `free_ast_tree` (`ast.c`, lines 104-161) -/

/-- The `switch` of `free_ast_tree` for a node allocated as a plain `ast_node`,
given the traces `fl` and `fr` of the recursive calls on `tree->left` and
`tree->right` should the case make them. The two-subtree labels free `right`
and fall through to the one-subtree labels, which free `left`.
`LNEG_NODE` has no case label and lands in `default` with every unlisted
value. A case that casts the plain struct to `ast_assignment_node`,
`ast_function_node` or `ast_function_def_node` reads the second pointer field
(`right`) as `value` or `arguments`. The case `FUNCTION_DEF_NODE` then reads
`node->body` (line 149), a third pointer field that the plain struct does not
have. -/
def free_switch (tree : AstNode) (ty : NodeType) (fl fr : List Effect) : List Effect :=
  match ty with
  | WHILE_NODE => fr ++ fl
  | ADD_NODE => fr ++ fl
  | SUB_NODE => fr ++ fl
  | MUL_NODE => fr ++ fl
  | DIV_NODE => fr ++ fl
  | MOD_NODE => fr ++ fl
  | LIST_NODE => fr ++ fl
  | UMINUS_NODE => fl
  | BNEG_NODE => fl
  | SYMBOL_DECLARATION_NODE => []
  | SYMBOL_REFERENCE_NODE => []
  | NUMBER_NODE => []
  | ASSIGNMENT_NODE => fr
  | FUNCTION_NODE => fr
  | FUNCTION_DEF_NODE => fr ++ [out_of_bounds_read tree]
  -- default
  | LNEG_NODE => [error_freeing LNEG_NODE]
  | other v => [error_freeing (other v)]

/-- The function `free_ast_tree`: the effects of the destruction pass, in
order; `free node` stands for the call `free(tree)` on that node. -/
def free_ast_tree : AstNode → List Effect
  | null => []
  | ast_node p ty left right =>
      free_switch (ast_node p ty left right) ty (free_ast_tree left) (free_ast_tree right) ++
        [free (ast_node p ty left right)]
  | ast_assignment_node p symbol value =>
      free_ast_tree value ++ [free (ast_assignment_node p symbol value)]
  | ast_number_node p value => [free (ast_number_node p value)]
  | ast_symbol_reference_node p symbol => [free (ast_symbol_reference_node p symbol)]
  | ast_symbol_declaration_node p symbol => [free (ast_symbol_declaration_node p symbol)]
  | ast_function_node p symbol arguments =>
      free_ast_tree arguments ++ [free (ast_function_node p symbol arguments)]
  | ast_function_def_node p symbol arguments body =>
      free_ast_tree arguments ++ free_ast_tree body ++
        [free (ast_function_def_node p symbol arguments body)]
  | ast_while_node p condition while_branch =>
      free_ast_tree while_branch ++ free_ast_tree condition ++
        [free (ast_while_node p condition while_branch)]

/-! ## The nodes of a tree -/

/-- Every node reachable from the root through owned children, the root
first; `NULL` contributes none. -/
def AstNode.nodes : AstNode → List AstNode
  | null => []
  | ast_node p ty left right => ast_node p ty left right :: (left.nodes ++ right.nodes)
  | ast_assignment_node p symbol value => ast_assignment_node p symbol value :: value.nodes
  | ast_number_node p value => [ast_number_node p value]
  | ast_symbol_reference_node p symbol => [ast_symbol_reference_node p symbol]
  | ast_symbol_declaration_node p symbol => [ast_symbol_declaration_node p symbol]
  | ast_function_node p symbol arguments =>
      ast_function_node p symbol arguments :: arguments.nodes
  | ast_function_def_node p symbol arguments body =>
      ast_function_def_node p symbol arguments body :: (arguments.nodes ++ body.nodes)
  | ast_while_node p condition while_branch =>
      ast_while_node p condition while_branch :: (condition.nodes ++ while_branch.nodes)

/-- Number of nodes of a tree. -/
def AstNode.size : AstNode → Nat
  | null => 0
  | ast_node _ _ left right => 1 + left.size + right.size
  | ast_assignment_node _ _ value => 1 + value.size
  | ast_number_node _ _ => 1
  | ast_symbol_reference_node _ _ => 1
  | ast_symbol_declaration_node _ _ => 1
  | ast_function_node _ _ arguments => 1 + arguments.size
  | ast_function_def_node _ _ arguments body => 1 + arguments.size + body.size
  | ast_while_node _ condition while_branch => 1 + condition.size + while_branch.size

/-- The node an effect is about, when it is about one. -/
def Effect.node : Effect → AstNode
  | eval_leaf n => n
  | make_assignment n => n
  | make_function_call n => n
  | make_function n => n
  | make_unary_op n => n
  | make_binary_op n => n
  | invalid_type _ => null
  | error_freeing _ => null
  | free n => n
  | out_of_bounds_read n => n

/-- The nodes a destruction pass frees, in order. -/
def freed (tree : AstNode) : List AstNode :=
  (free_ast_tree tree).filterMap fun e =>
    match e with
    | free n => some n
    | _ => none

/-- The five binary operator kinds. -/
def binary_ops : List NodeType := [ADD_NODE, SUB_NODE, MUL_NODE, DIV_NODE, MOD_NODE]

/-- The three unary operator kinds. -/
def unary_ops : List NodeType := [UMINUS_NODE, BNEG_NODE, LNEG_NODE]

/-- The three leaf kinds. -/
def leaf_types : List NodeType :=
  [NUMBER_NODE, SYMBOL_REFERENCE_NODE, SYMBOL_DECLARATION_NODE]

/-- Trees that `free_ast_tree` walks in full: every plain node carries a
two-subtree discriminant that the switch lists, or `UMINUS_NODE` or `BNEG_NODE`
with no right subtree, and so do all nodes below. -/
def free_covers : AstNode → Bool
  | null => true
  | ast_node _ ty left right =>
      match ty with
      | WHILE_NODE => free_covers left && free_covers right
      | ADD_NODE => free_covers left && free_covers right
      | SUB_NODE => free_covers left && free_covers right
      | MUL_NODE => free_covers left && free_covers right
      | DIV_NODE => free_covers left && free_covers right
      | MOD_NODE => free_covers left && free_covers right
      | LIST_NODE => free_covers left && free_covers right
      | UMINUS_NODE => free_covers left && decide (right = null)
      | BNEG_NODE => free_covers left && decide (right = null)
      | _ => false
  | ast_assignment_node _ _ value => free_covers value
  | ast_number_node _ _ => true
  | ast_symbol_reference_node _ _ => true
  | ast_symbol_declaration_node _ _ => true
  | ast_function_node _ _ arguments => free_covers arguments
  | ast_function_def_node _ _ arguments body => free_covers arguments && free_covers body
  | ast_while_node _ condition while_branch => free_covers condition && free_covers while_branch

/-- The case labels of the `switch` of `free_ast_tree` (lines 109-145); every
other discriminant lands in `default`. -/
def free_case_labels : List NodeType :=
  [WHILE_NODE, ADD_NODE, SUB_NODE, MUL_NODE, DIV_NODE, MOD_NODE, LIST_NODE,
   UMINUS_NODE, BNEG_NODE,
   SYMBOL_DECLARATION_NODE, SYMBOL_REFERENCE_NODE, NUMBER_NODE,
   ASSIGNMENT_NODE, FUNCTION_NODE, FUNCTION_DEF_NODE]

/-- The case labels under the comment "two sub-trees" of `free_ast_tree`
(lines 109-115). -/
def two_subtree_labels : List NodeType :=
  [WHILE_NODE, ADD_NODE, SUB_NODE, MUL_NODE, DIV_NODE, MOD_NODE, LIST_NODE]

/-- The pointer fields of a node that hold subtrees, in the order in which the
constructor stores them; `NULL` has none. -/
def AstNode.children : AstNode → List AstNode
  | null => []
  | ast_node _ _ left right => [left, right]
  | ast_assignment_node _ _ value => [value]
  | ast_number_node _ _ => []
  | ast_symbol_reference_node _ _ => []
  | ast_symbol_declaration_node _ _ => []
  | ast_function_node _ _ arguments => [arguments]
  | ast_function_def_node _ _ arguments body => [arguments, body]
  | ast_while_node _ condition while_branch => [condition, while_branch]

/-- The field `symbol` of the structs that have one. -/
def AstNode.symbol : AstNode → Option Symrec
  | ast_assignment_node _ symbol _ => some symbol
  | ast_symbol_reference_node _ symbol => some symbol
  | ast_symbol_declaration_node _ symbol => some symbol
  | ast_function_node _ symbol _ => some symbol
  | ast_function_def_node _ symbol _ _ => some symbol
  | _ => none

/-- The field `value` of an `ast_number_node`. -/
def AstNode.number_value : AstNode → Option Int
  | ast_number_node _ value => some value
  | _ => none

/-- Expression trees: built only from number literals, symbol references,
symbol declarations, unary operators (with their operand and no second
subtree), binary operators (with both operands) and assignments (with their
value), each allocated by its own constructor. -/
def expr_tree : AstNode → Bool
  | null => false
  | ast_node _ ty left right =>
      match ty with
      | UMINUS_NODE => expr_tree left && decide (right = null)
      | BNEG_NODE => expr_tree left && decide (right = null)
      | LNEG_NODE => expr_tree left && decide (right = null)
      | ADD_NODE => expr_tree left && expr_tree right
      | SUB_NODE => expr_tree left && expr_tree right
      | MUL_NODE => expr_tree left && expr_tree right
      | DIV_NODE => expr_tree left && expr_tree right
      | MOD_NODE => expr_tree left && expr_tree right
      | _ => false
  | ast_assignment_node _ _ value => expr_tree value
  | ast_number_node _ _ => true
  | ast_symbol_reference_node _ _ => true
  | ast_symbol_declaration_node _ _ => true
  | ast_function_node _ _ _ => false
  | ast_function_def_node _ _ _ _ => false
  | ast_while_node _ _ _ => false

/-- Trees on which the walker reaches every node and emits for it after its
subtrees: built from number literals, symbol references, symbol declarations,
unary operators (no second subtree), binary operators, assignments, function
calls without argument subtree and function definitions with neither parameter
nor body subtree; a subtree may be absent. Statement lists, repeat blocks and
unrecognized discriminants do not occur. A plain `ast_node` may carry a leaf
discriminant or `FUNCTION_NODE` (with no subtree) or `ASSIGNMENT_NODE` (the
value in `right`, nothing in `left`), not `FUNCTION_DEF_NODE`. -/
def emits_every_node : AstNode → Bool
  | null => true
  | ast_node _ ty left right =>
      match ty with
      | NUMBER_NODE => decide (left = null) && decide (right = null)
      | SYMBOL_REFERENCE_NODE => decide (left = null) && decide (right = null)
      | SYMBOL_DECLARATION_NODE => decide (left = null) && decide (right = null)
      | FUNCTION_NODE => decide (left = null) && decide (right = null)
      | ASSIGNMENT_NODE => decide (left = null) && emits_every_node right
      | UMINUS_NODE => emits_every_node left && decide (right = null)
      | BNEG_NODE => emits_every_node left && decide (right = null)
      | LNEG_NODE => emits_every_node left && decide (right = null)
      | ADD_NODE => emits_every_node left && emits_every_node right
      | SUB_NODE => emits_every_node left && emits_every_node right
      | MUL_NODE => emits_every_node left && emits_every_node right
      | DIV_NODE => emits_every_node left && emits_every_node right
      | MOD_NODE => emits_every_node left && emits_every_node right
      | _ => false
  | ast_assignment_node _ _ value => emits_every_node value
  | ast_number_node _ _ => true
  | ast_symbol_reference_node _ _ => true
  | ast_symbol_declaration_node _ _ => true
  | ast_function_node _ _ arguments => decide (arguments = null)
  | ast_function_def_node _ _ arguments body =>
      decide (arguments = null) && decide (body = null)
  | ast_while_node _ _ _ => false

/-- Trees in which no node tagged `FUNCTION_DEF_NODE` was allocated by
`new_ast_node` as a plain `ast_node`: function definitions are built by
`new_ast_function_def_node`, which allocates the `body` field. Every other
discriminant, recognized or not, may occur on a plain node. -/
def well_allocated : AstNode → Bool
  | null => true
  | ast_node _ ty left right =>
      (ty != FUNCTION_DEF_NODE) && well_allocated left && well_allocated right
  | ast_assignment_node _ _ value => well_allocated value
  | ast_number_node _ _ => true
  | ast_symbol_reference_node _ _ => true
  | ast_symbol_declaration_node _ _ => true
  | ast_function_node _ _ arguments => well_allocated arguments
  | ast_function_def_node _ _ arguments body => well_allocated arguments && well_allocated body
  | ast_while_node _ condition while_branch =>
      well_allocated condition && well_allocated while_branch

/-- Specification side of the traversal: the callback that matches the variant
of a node, as the dispatch table of the tree walker names it; `none` for a
variant without emission (statement list, repeat block) and for a node that is
no variant at all. -/
def callback_of (n : AstNode) : Option Effect :=
  match n.node_type with
  | some NUMBER_NODE => some (eval_leaf n)
  | some SYMBOL_REFERENCE_NODE => some (eval_leaf n)
  | some SYMBOL_DECLARATION_NODE => some (eval_leaf n)
  | some UMINUS_NODE => some (make_unary_op n)
  | some BNEG_NODE => some (make_unary_op n)
  | some LNEG_NODE => some (make_unary_op n)
  | some ADD_NODE => some (make_binary_op n)
  | some SUB_NODE => some (make_binary_op n)
  | some MUL_NODE => some (make_binary_op n)
  | some DIV_NODE => some (make_binary_op n)
  | some MOD_NODE => some (make_binary_op n)
  | some ASSIGNMENT_NODE => some (make_assignment n)
  | some FUNCTION_NODE => some (make_function_call n)
  | some FUNCTION_DEF_NODE => some (make_function n)
  | _ => none

/-- Specification side of the traversal: the left-to-right post-order listing
of the nodes of a tree, every subtree before its parent. -/
def postorder : AstNode → List AstNode
  | null => []
  | ast_node p ty left right =>
      postorder left ++ postorder right ++ [ast_node p ty left right]
  | ast_assignment_node p symbol value =>
      postorder value ++ [ast_assignment_node p symbol value]
  | ast_number_node p value => [ast_number_node p value]
  | ast_symbol_reference_node p symbol => [ast_symbol_reference_node p symbol]
  | ast_symbol_declaration_node p symbol => [ast_symbol_declaration_node p symbol]
  | ast_function_node p symbol arguments =>
      postorder arguments ++ [ast_function_node p symbol arguments]
  | ast_function_def_node p symbol arguments body =>
      postorder arguments ++ postorder body ++
        [ast_function_def_node p symbol arguments body]
  | ast_while_node p condition while_branch =>
      postorder condition ++ postorder while_branch ++
        [ast_while_node p condition while_branch]

/-! ## Auxiliary lemmas -/

/-- An effect of a traversal is about a node no larger than the tree that is
traversed (diagnostics are about no node). -/
theorem node_size_le_of_mem_traverse (t : AstNode) :
    ∀ e ∈ traverse_tree t, e.node.size ≤ t.size := by
  induction t with
  | null => intro e he; simp [traverse_tree] at he
  | ast_node p ty l r ihl ihr =>
    intro e he
    cases ty <;>
      simp only [traverse_tree, is_leaf, AstNode.node_type, traverse_switch,
        List.nil_append, List.mem_append, List.mem_singleton, List.mem_cons,
        List.not_mem_nil, if_true, if_false, or_false, false_or,
        Bool.false_eq_true] at he
    all_goals first
      | exact absurd he id
      | (rcases he with (he | he) | he
         · have := ihl e he; simp only [AstNode.size]; omega
         · have := ihr e he; simp only [AstNode.size]; omega
         · subst he; simp [Effect.node])
      | (rcases he with he | he
         · have := ihl e he; simp only [AstNode.size]; omega
         · subst he; simp [Effect.node])
      | (rcases he with he | he
         · have := ihr e he; simp only [AstNode.size]; omega
         · subst he; simp [Effect.node])
      | (subst he; simp [Effect.node, AstNode.size])
      | (rcases he with rfl | rfl <;> simp [Effect.node, AstNode.size])
  | ast_assignment_node p s v ih =>
    intro e he
    simp only [traverse_tree, is_leaf, AstNode.node_type, List.nil_append, List.mem_append,
      List.mem_singleton, if_false, Bool.false_eq_true] at he
    rcases he with he | he
    · have := ih e he; simp only [AstNode.size]; omega
    · subst he; simp [Effect.node]
  | ast_number_node p v =>
    intro e he
    simp only [traverse_tree, is_leaf, AstNode.node_type, List.nil_append,
      List.mem_singleton, if_true] at he
    subst he; simp [Effect.node]
  | ast_symbol_reference_node p s =>
    intro e he
    simp only [traverse_tree, is_leaf, AstNode.node_type, List.nil_append,
      List.mem_singleton, if_true] at he
    subst he; simp [Effect.node]
  | ast_symbol_declaration_node p s =>
    intro e he
    simp only [traverse_tree, is_leaf, AstNode.node_type, List.nil_append,
      List.mem_singleton, if_true] at he
    subst he; simp [Effect.node]
  | ast_function_node p s a _ =>
    intro e he
    simp only [traverse_tree, is_leaf, AstNode.node_type, List.nil_append,
      List.mem_singleton, if_false, Bool.false_eq_true] at he
    subst he; simp [Effect.node]
  | ast_function_def_node p s a b _ ihb =>
    intro e he
    simp only [traverse_tree, is_leaf, AstNode.node_type, List.nil_append, List.mem_append,
      List.mem_singleton, if_false, Bool.false_eq_true] at he
    rcases he with he | he
    · subst he; simp [Effect.node]
    · have := ihb e he; simp only [AstNode.size]; omega
  | ast_while_node p c w _ _ =>
    intro e he
    simp [traverse_tree, is_leaf, AstNode.node_type] at he

/-- An effect about a node strictly larger than a tree does not occur in the
traversal of that tree. -/
theorem not_mem_traverse_of_size_lt (t : AstNode) (e : Effect)
    (h : t.size < e.node.size) : e ∉ traverse_tree t := by
  intro he
  have := node_size_le_of_mem_traverse t e he
  omega

/-- On a tree that `free_ast_tree` walks in full, the freed nodes are the nodes
of the tree, each once. -/
theorem freed_perm_nodes_of_covers (t : AstNode) (h : free_covers t = true) :
    (freed t).Perm t.nodes := by
  induction t with
  | null => simp [freed, free_ast_tree, AstNode.nodes]
  | ast_node p ty l r ihl ihr =>
    have two : free_covers l = true → free_covers r = true →
        (freed r ++ freed l ++ [ast_node p ty l r]).Perm
          (ast_node p ty l r :: (l.nodes ++ r.nodes)) := fun hl hr =>
      (List.perm_append_singleton _ _).trans
        (List.Perm.cons _ (List.perm_append_comm.trans ((ihl hl).append (ihr hr))))
    have one : free_covers l = true → r = null →
        (freed l ++ [ast_node p ty l r]).Perm
          (ast_node p ty l r :: (l.nodes ++ r.nodes)) := fun hl hr => by
      subst hr
      simpa [AstNode.nodes] using (List.perm_append_singleton _ _).trans (List.Perm.cons _ (ihl hl))
    cases ty <;>
      simp only [free_covers, Bool.and_eq_true, decide_eq_true_eq, Bool.false_eq_true] at h
    all_goals first
      | simpa [freed, free_ast_tree, free_switch, AstNode.nodes] using two h.1 h.2
      | simpa [freed, free_ast_tree, free_switch, AstNode.nodes] using one h.1 h.2
  | ast_assignment_node p s v ih =>
    have := (List.perm_append_singleton (ast_assignment_node p s v) (freed v)).trans
      (List.Perm.cons _ (ih h))
    simpa [freed, free_ast_tree, AstNode.nodes] using this
  | ast_number_node p v => simp [freed, free_ast_tree, AstNode.nodes]
  | ast_symbol_reference_node p s => simp [freed, free_ast_tree, AstNode.nodes]
  | ast_symbol_declaration_node p s => simp [freed, free_ast_tree, AstNode.nodes]
  | ast_function_node p s a ih =>
    have := (List.perm_append_singleton (ast_function_node p s a) (freed a)).trans
      (List.Perm.cons _ (ih h))
    simpa [freed, free_ast_tree, AstNode.nodes] using this
  | ast_function_def_node p s a b iha ihb =>
    simp only [free_covers, Bool.and_eq_true] at h
    have := (List.perm_append_singleton (ast_function_def_node p s a b)
      (freed a ++ freed b)).trans (List.Perm.cons _ ((iha h.1).append (ihb h.2)))
    simpa [freed, free_ast_tree, AstNode.nodes] using this
  | ast_while_node p c w ihc ihw =>
    simp only [free_covers, Bool.and_eq_true] at h
    have := (List.perm_append_singleton (ast_while_node p c w)
      (freed w ++ freed c)).trans
        (List.Perm.cons _ (List.perm_append_comm.trans ((ihc h.1).append (ihw h.2))))
    simpa [freed, free_ast_tree, AstNode.nodes] using this

/-! ## Traversal order -/

/-- C1: traversing Assignment(x, BinaryOp(add, NumberLiteral 2, NumberLiteral 3))
performs exactly four effects, all emissions and in this order: `eval_leaf` of
the literal 2, `eval_leaf` of the literal 3, `make_binary_op` of the sum,
`make_assignment` of the assignment. -/
theorem traverse_assignment_of_sum (p₀ p₁ p₂ p₃ : Nat) (x : Symrec) :
    traverse_tree
        (new_ast_assignment_node p₃ x
          (new_ast_node p₂ ADD_NODE (new_ast_number_node p₀ 2) (new_ast_number_node p₁ 3))) =
      [eval_leaf (new_ast_number_node p₀ 2),
       eval_leaf (new_ast_number_node p₁ 3),
       make_binary_op
         (new_ast_node p₂ ADD_NODE (new_ast_number_node p₀ 2) (new_ast_number_node p₁ 3)),
       make_assignment
         (new_ast_assignment_node p₃ x
           (new_ast_node p₂ ADD_NODE (new_ast_number_node p₀ 2)
             (new_ast_number_node p₁ 3)))] ∧
    emissions
        (new_ast_assignment_node p₃ x
          (new_ast_node p₂ ADD_NODE (new_ast_number_node p₀ 2) (new_ast_number_node p₁ 3))) =
      traverse_tree
        (new_ast_assignment_node p₃ x
          (new_ast_node p₂ ADD_NODE (new_ast_number_node p₀ 2)
            (new_ast_number_node p₁ 3))) := by
  constructor <;> rfl

/-- C2, evaluated on a list of one statement: `traverse_tree` has no case for
`LIST_NODE`, so the traversal of the list node is empty, while the traversal of
its head followed by that of its rest is the one `eval_leaf` of the head. -/
theorem traverse_list_node_skips_statements :
    traverse_tree (new_ast_node 1 LIST_NODE (new_ast_number_node 0 7) null) = [] ∧
    traverse_tree (new_ast_number_node 0 7) ++ traverse_tree null =
      [eval_leaf (new_ast_number_node 0 7)] ∧
    free_ast_tree (new_ast_node 1 LIST_NODE (new_ast_number_node 0 7) null) =
      [free (new_ast_number_node 0 7),
       free (new_ast_node 1 LIST_NODE (new_ast_number_node 0 7) null)] := by
  decide

/-- C3: for a binary operator node (add, sub, mul, div, mod) with subtrees `L`
and `R`, the traversal is the traversal of `L`, then that of `R`, then the one
call `make_binary_op` on the node, which occurs exactly once. -/
theorem traverse_binary_op (p : Nat) (ty : NodeType) (L R : AstNode)
    (h : ty ∈ binary_ops) :
    traverse_tree (new_ast_node p ty L R) =
      traverse_tree L ++ traverse_tree R ++ [make_binary_op (new_ast_node p ty L R)] ∧
    (traverse_tree (new_ast_node p ty L R)).count
      (make_binary_op (new_ast_node p ty L R)) = 1 := by
  have heq : traverse_tree (new_ast_node p ty L R) =
      traverse_tree L ++ traverse_tree R ++ [make_binary_op (new_ast_node p ty L R)] := by
    simp only [binary_ops, List.mem_cons, List.mem_singleton, List.not_mem_nil, or_false] at h
    rcases h with h | h | h | h | h <;> subst h <;> rfl
  refine ⟨heq, ?_⟩
  have hL : make_binary_op (new_ast_node p ty L R) ∉ traverse_tree L :=
    not_mem_traverse_of_size_lt _ _ (by simp only [Effect.node, new_ast_node, AstNode.size]; omega)
  have hR : make_binary_op (new_ast_node p ty L R) ∉ traverse_tree R :=
    not_mem_traverse_of_size_lt _ _ (by simp only [Effect.node, new_ast_node, AstNode.size]; omega)
  rw [heq, List.count_append, List.count_append, List.count_eq_zero_of_not_mem hL,
    List.count_eq_zero_of_not_mem hR]
  simp

/-- Witness of C3 on 2 + 3. -/
theorem traverse_binary_op_witness :
    ADD_NODE ∈ binary_ops ∧
    traverse_tree (new_ast_node 2 ADD_NODE (new_ast_number_node 0 2) (new_ast_number_node 1 3)) =
      traverse_tree (new_ast_number_node 0 2) ++ traverse_tree (new_ast_number_node 1 3) ++
        [make_binary_op
          (new_ast_node 2 ADD_NODE (new_ast_number_node 0 2) (new_ast_number_node 1 3))] :=
  ⟨by decide, (traverse_binary_op 2 ADD_NODE _ _ (by decide)).1⟩

/-- C4: for an assignment node with value subtree `v`, the traversal is the
traversal of `v` followed by the one call `make_assignment` on the node, which
is the last effect and occurs exactly once. -/
theorem traverse_assignment (p : Nat) (x : Symrec) (v : AstNode) :
    traverse_tree (new_ast_assignment_node p x v) =
      traverse_tree v ++ [make_assignment (new_ast_assignment_node p x v)] ∧
    (traverse_tree (new_ast_assignment_node p x v)).getLast? =
      some (make_assignment (new_ast_assignment_node p x v)) ∧
    (traverse_tree (new_ast_assignment_node p x v)).count
      (make_assignment (new_ast_assignment_node p x v)) = 1 := by
  have heq : traverse_tree (new_ast_assignment_node p x v) =
      traverse_tree v ++ [make_assignment (new_ast_assignment_node p x v)] := rfl
  have hv : make_assignment (new_ast_assignment_node p x v) ∉ traverse_tree v :=
    not_mem_traverse_of_size_lt _ _
      (by simp only [Effect.node, new_ast_assignment_node, AstNode.size]; omega)
  refine ⟨heq, ?_, ?_⟩
  · rw [heq]; simp
  · rw [heq, List.count_append, List.count_eq_zero_of_not_mem hv]; simp

/-- C5: for a function definition node with parameter list `a` and body `b`,
the traversal is the one call `make_function` on the node followed by the
traversal of `b`; the call comes first and nothing is emitted for `a`. -/
theorem traverse_function_def (p : Nat) (f : Symrec) (a b : AstNode) :
    traverse_tree (new_ast_function_def_node p f a b) =
      [make_function (new_ast_function_def_node p f a b)] ++ traverse_tree b ∧
    (traverse_tree (new_ast_function_def_node p f a b)).head? =
      some (make_function (new_ast_function_def_node p f a b)) ∧
    (traverse_tree (new_ast_function_def_node p f a b)).length =
      1 + (traverse_tree b).length := by
  have heq : traverse_tree (new_ast_function_def_node p f a b) =
      [make_function (new_ast_function_def_node p f a b)] ++ traverse_tree b := rfl
  refine ⟨heq, ?_, ?_⟩
  · rw [heq]; rfl
  · rw [heq]; simp [Nat.add_comm]

/-- C6: for a function call node, whatever its argument subtree, the traversal
is the single call `make_function_call` on the node. -/
theorem traverse_function_call (p : Nat) (f : Symrec) (args : AstNode) :
    traverse_tree (new_ast_function_node p f args) =
      [make_function_call (new_ast_function_node p f args)] := rfl

/-- C7: for a unary operator node of each of the three kinds with operand `e`
as left subtree, the traversal is the traversal of `e` followed by the one
call `make_unary_op` on the node. -/
theorem traverse_unary_op (p : Nat) (ty : NodeType) (e r : AstNode)
    (h : ty ∈ unary_ops) :
    traverse_tree (new_ast_node p ty e r) =
      traverse_tree e ++ [make_unary_op (new_ast_node p ty e r)] := by
  simp only [unary_ops, List.mem_cons, List.mem_singleton, List.not_mem_nil, or_false] at h
  rcases h with h | h | h <;> subst h <;> rfl

/-- Witness of C7 on the logical negation of a literal. -/
theorem traverse_unary_op_witness :
    LNEG_NODE ∈ unary_ops ∧
    traverse_tree (new_ast_node 1 LNEG_NODE (new_ast_number_node 0 5) null) =
      traverse_tree (new_ast_number_node 0 5) ++
        [make_unary_op (new_ast_node 1 LNEG_NODE (new_ast_number_node 0 5) null)] :=
  ⟨by decide, traverse_unary_op 1 LNEG_NODE _ _ (by decide)⟩

/-- C8: a node whose discriminant is `WHILE_NODE`, whatever its subtrees, is
traversed without any effect, and `is_leaf` returns false on it without
printing. -/
theorem traverse_while (t : AstNode) (h : t.node_type = some WHILE_NODE) :
    traverse_tree t = [] ∧ emissions t = [] ∧ is_leaf t = (false, []) := by
  cases t with
  | ast_node p ty l r =>
    simp only [AstNode.node_type, Option.some.injEq] at h
    subst h
    exact ⟨rfl, rfl, rfl⟩
  | ast_while_node p c w => exact ⟨rfl, rfl, rfl⟩
  | _ => simp [AstNode.node_type] at h

/-- Witness of C8 on a loop with a condition and a body. -/
theorem traverse_while_witness :
    (new_ast_while_node 2 (new_ast_number_node 0 1) (new_ast_number_node 1 2)).node_type =
      some WHILE_NODE ∧
    traverse_tree (new_ast_while_node 2 (new_ast_number_node 0 1) (new_ast_number_node 1 2)) =
      [] :=
  ⟨rfl, (traverse_while
    (new_ast_while_node 2 (new_ast_number_node 0 1) (new_ast_number_node 1 2)) rfl).1⟩

/-! ## Leaf classification -/

/-- C9: on a node whose discriminant is one of the sixteen recognized values,
`is_leaf` returns true exactly when the discriminant is `NUMBER_NODE`,
`SYMBOL_REFERENCE_NODE` or `SYMBOL_DECLARATION_NODE`, and prints nothing. -/
theorem is_leaf_recognized (node : AstNode) (ty : NodeType)
    (hty : node.node_type = some ty) (hrec : ∀ v, ty ≠ other v) :
    ((is_leaf node).1 = true ↔ ty ∈ leaf_types) ∧ (is_leaf node).2 = [] := by
  unfold is_leaf
  rw [hty]
  cases ty <;> first
    | exact absurd rfl (hrec _)
    | exact ⟨by decide, rfl⟩

/-- Witness of C9 on a number literal. -/
theorem is_leaf_recognized_witness :
    (new_ast_number_node 0 7).node_type = some NUMBER_NODE ∧
    (∀ v, NUMBER_NODE ≠ other v) ∧
    (((is_leaf (new_ast_number_node 0 7)).1 = true ↔ NUMBER_NODE ∈ leaf_types) ∧
      (is_leaf (new_ast_number_node 0 7)).2 = []) :=
  ⟨rfl, fun _ h => NodeType.noConfusion h,
    is_leaf_recognized _ _ rfl (fun _ h => NodeType.noConfusion h)⟩

/-! ## Destruction -/

/-- C10, evaluated on the logical negation of a literal: `free_ast_tree` has no
case for `LNEG_NODE`, so it prints the diagnostic of the default case and frees
the operator node alone; the operand, a node of the tree, is not freed. -/
theorem free_lneg_leaks_operand :
    free_ast_tree (new_ast_node 1 LNEG_NODE (new_ast_number_node 0 7) null) =
      [error_freeing LNEG_NODE,
       free (new_ast_node 1 LNEG_NODE (new_ast_number_node 0 7) null)] ∧
    (new_ast_node 1 LNEG_NODE (new_ast_number_node 0 7) null).nodes =
      [new_ast_node 1 LNEG_NODE (new_ast_number_node 0 7) null, new_ast_number_node 0 7] ∧
    new_ast_number_node 0 7 ∉
      freed (new_ast_node 1 LNEG_NODE (new_ast_number_node 0 7) null) ∧
    freed (new_ast_node 1 UMINUS_NODE (new_ast_number_node 0 7) null) =
      [new_ast_number_node 0 7,
       new_ast_node 1 UMINUS_NODE (new_ast_number_node 0 7) null] := by
  decide

/-- C11, evaluated on the three unary kinds over the same operand: for
`UMINUS_NODE` and `BNEG_NODE` the operand is freed and then the node, without
diagnostic; for `LNEG_NODE` the default case prints its diagnostic and the node
alone is freed, the operand is not. -/
theorem free_unary_kinds :
    free_ast_tree (new_ast_node 1 UMINUS_NODE (new_ast_symbol_reference_node 0 3) null) =
      [free (new_ast_symbol_reference_node 0 3),
       free (new_ast_node 1 UMINUS_NODE (new_ast_symbol_reference_node 0 3) null)] ∧
    free_ast_tree (new_ast_node 1 BNEG_NODE (new_ast_symbol_reference_node 0 3) null) =
      [free (new_ast_symbol_reference_node 0 3),
       free (new_ast_node 1 BNEG_NODE (new_ast_symbol_reference_node 0 3) null)] ∧
    free_ast_tree (new_ast_node 1 LNEG_NODE (new_ast_symbol_reference_node 0 3) null) =
      [error_freeing LNEG_NODE,
       free (new_ast_node 1 LNEG_NODE (new_ast_symbol_reference_node 0 3) null)] := by
  decide

/-- C12: on `NULL` both `traverse_tree` and `free_ast_tree` return at once:
no emission, no diagnostic, nothing freed. -/
theorem null_is_noop :
    traverse_tree null = [] ∧ emissions null = [] ∧
    free_ast_tree null = [] ∧ freed null = [] := by
  decide

/-- C13: on a node whose discriminant is none of the sixteen named values,
`is_leaf` prints the diagnostic carrying that discriminant and returns false,
and `traverse_tree` does nothing beyond that diagnostic: no emission, and no
effect of any child. -/
theorem traverse_unrecognized (t : AstNode) (v : Int)
    (h : t.node_type = some (other v)) :
    is_leaf t = (false, [invalid_type (other v)]) ∧
    traverse_tree t = [invalid_type (other v)] ∧
    emissions t = [] := by
  cases t with
  | ast_node p ty l r =>
    simp only [AstNode.node_type, Option.some.injEq] at h
    subst h
    exact ⟨rfl, rfl, rfl⟩
  | _ => simp [AstNode.node_type] at h

/-- Witness of C13 on a node of discriminant 63 over a literal. -/
theorem traverse_unrecognized_witness :
    (new_ast_node 1 (other 63) (new_ast_number_node 0 7) null).node_type = some (other 63) ∧
    traverse_tree (new_ast_node 1 (other 63) (new_ast_number_node 0 7) null) =
      [invalid_type (other 63)] :=
  ⟨rfl, (traverse_unrecognized
    (new_ast_node 1 (other 63) (new_ast_number_node 0 7) null) 63 rfl).2.1⟩

/-- C14: on a node whose discriminant is not a case label of `free_ast_tree`,
the pass prints exactly one diagnostic, which carries the discriminant, frees
none of the children and then frees the node itself. -/
theorem free_unrecognized (p : Nat) (ty : NodeType) (l r : AstNode)
    (h : ty ∉ free_case_labels) :
    free_ast_tree (new_ast_node p ty l r) =
      [error_freeing ty, free (new_ast_node p ty l r)] ∧
    freed (new_ast_node p ty l r) = [new_ast_node p ty l r] := by
  cases ty <;> first
    | exact absurd (by decide) h
    | exact ⟨rfl, rfl⟩

/-- Witness of C14 on a node of discriminant 63 over two literals. -/
theorem free_unrecognized_witness :
    other 63 ∉ free_case_labels ∧
    free_ast_tree
        (new_ast_node 2 (other 63) (new_ast_number_node 0 7) (new_ast_number_node 1 8)) =
      [error_freeing (other 63),
       free (new_ast_node 2 (other 63) (new_ast_number_node 0 7) (new_ast_number_node 1 8))] :=
  ⟨by decide, (free_unrecognized 2 (other 63) _ _ (by decide)).1⟩

/-- C16: for a plain node with a two-subtree discriminant (the five binary
operators, `LIST_NODE`, `WHILE_NODE`) and for a node built by
`new_ast_while_node`, the destruction pass is the pass over the right subtree,
then the pass over the left subtree, then `free` of the node itself. -/
theorem free_two_subtrees (p : Nat) (ty : NodeType) (L R : AstNode)
    (h : ty ∈ two_subtree_labels) :
    free_ast_tree (new_ast_node p ty L R) =
      free_ast_tree R ++ free_ast_tree L ++ [free (new_ast_node p ty L R)] ∧
    freed (new_ast_node p ty L R) = freed R ++ freed L ++ [new_ast_node p ty L R] ∧
    free_ast_tree (new_ast_while_node p L R) =
      free_ast_tree R ++ free_ast_tree L ++ [free (new_ast_while_node p L R)] ∧
    freed (new_ast_while_node p L R) = freed R ++ freed L ++ [new_ast_while_node p L R] := by
  have hw : freed (new_ast_while_node p L R) =
      freed R ++ freed L ++ [new_ast_while_node p L R] := by
    simp [freed, free_ast_tree, new_ast_while_node]
  simp only [two_subtree_labels, List.mem_cons, List.mem_singleton, List.not_mem_nil,
    or_false] at h
  rcases h with h | h | h | h | h | h | h <;> subst h <;>
    exact ⟨rfl, by simp [freed, free_ast_tree, free_switch, new_ast_node], rfl, hw⟩

/-- Witness of C16 on a statement list of two literals. -/
theorem free_two_subtrees_witness :
    LIST_NODE ∈ two_subtree_labels ∧
    free_ast_tree
        (new_ast_node 2 LIST_NODE (new_ast_number_node 0 7) (new_ast_number_node 1 8)) =
      free_ast_tree (new_ast_number_node 1 8) ++ free_ast_tree (new_ast_number_node 0 7) ++
        [free (new_ast_node 2 LIST_NODE (new_ast_number_node 0 7) (new_ast_number_node 1 8))] :=
  ⟨by decide, (free_two_subtrees 2 LIST_NODE _ _ (by decide)).1⟩

/-! ## Construction -/

/-- C18: every constructor returns a node at the address allocated for it,
with the discriminant the constructor fixes (for `new_ast_node`, the one
passed) and with exactly the arguments as payload and subtrees. -/
theorem constructors_store_arguments (p : Nat) (v : Int) (s : Symrec) (t : NodeType)
    (a b : AstNode) :
    ((new_ast_number_node p v).node_type = some NUMBER_NODE ∧
      (new_ast_number_node p v).number_value = some v ∧
      (new_ast_number_node p v).children = [] ∧
      (new_ast_number_node p v).addr = some p) ∧
    ((new_ast_symbol_reference_node p s).node_type = some SYMBOL_REFERENCE_NODE ∧
      (new_ast_symbol_reference_node p s).symbol = some s ∧
      (new_ast_symbol_reference_node p s).children = [] ∧
      (new_ast_symbol_reference_node p s).addr = some p) ∧
    ((new_ast_symbol_declaration_node p s).node_type = some SYMBOL_DECLARATION_NODE ∧
      (new_ast_symbol_declaration_node p s).symbol = some s ∧
      (new_ast_symbol_declaration_node p s).children = [] ∧
      (new_ast_symbol_declaration_node p s).addr = some p) ∧
    ((new_ast_assignment_node p s a).node_type = some ASSIGNMENT_NODE ∧
      (new_ast_assignment_node p s a).symbol = some s ∧
      (new_ast_assignment_node p s a).children = [a] ∧
      (new_ast_assignment_node p s a).addr = some p) ∧
    ((new_ast_function_node p s a).node_type = some FUNCTION_NODE ∧
      (new_ast_function_node p s a).symbol = some s ∧
      (new_ast_function_node p s a).children = [a] ∧
      (new_ast_function_node p s a).addr = some p) ∧
    ((new_ast_function_def_node p s a b).node_type = some FUNCTION_DEF_NODE ∧
      (new_ast_function_def_node p s a b).symbol = some s ∧
      (new_ast_function_def_node p s a b).children = [a, b] ∧
      (new_ast_function_def_node p s a b).addr = some p) ∧
    ((new_ast_while_node p a b).node_type = some WHILE_NODE ∧
      (new_ast_while_node p a b).children = [a, b] ∧
      (new_ast_while_node p a b).symbol = none ∧
      (new_ast_while_node p a b).addr = some p) ∧
    ((new_ast_node p t a b).node_type = some t ∧
      (new_ast_node p t a b).children = [a, b] ∧
      (new_ast_node p t a b).symbol = none ∧
      (new_ast_node p t a b).addr = some p) := by
  refine ⟨⟨rfl, rfl, rfl, rfl⟩, ⟨rfl, rfl, rfl, rfl⟩, ⟨rfl, rfl, rfl, rfl⟩, ⟨rfl, rfl, rfl, rfl⟩,
    ⟨rfl, rfl, rfl, rfl⟩, ⟨rfl, rfl, rfl, rfl⟩, ⟨rfl, rfl, rfl, rfl⟩, ⟨rfl, rfl, rfl, rfl⟩⟩

/-! ## Expression trees and the destruction pass: shared lemmas -/

/-- The traversal of a binary operator node, whatever its subtrees. -/
theorem traverse_ast_node_binary (p : Nat) (ty : NodeType) (L R : AstNode)
    (h : ty ∈ binary_ops) :
    traverse_tree (ast_node p ty L R) =
      traverse_tree L ++ traverse_tree R ++ [make_binary_op (ast_node p ty L R)] := by
  simp only [binary_ops, List.mem_cons, List.mem_singleton, List.not_mem_nil, or_false] at h
  rcases h with h | h | h | h | h <;> subst h <;> rfl

/-- The emissions of two traces in sequence. -/
theorem filter_isEmission_append (a b : List Effect) :
    (a ++ b).filter Effect.isEmission =
      a.filter Effect.isEmission ++ b.filter Effect.isEmission :=
  List.filter_append _ _

/-- On an expression tree the traversal lists the callbacks of the nodes in
post-order. -/
theorem map_some_traverse_of_expr (t : AstNode) (h : expr_tree t = true) :
    (traverse_tree t).map some = (postorder t).map callback_of := by
  induction t with
  | null => simp [expr_tree] at h
  | ast_node p ty l r ihl ihr =>
    cases ty <;>
      simp only [expr_tree, Bool.and_eq_true, decide_eq_true_eq, Bool.false_eq_true] at h
    all_goals first
      | (rcases h with ⟨hl, rfl⟩
         simp [traverse_tree, is_leaf, AstNode.node_type, traverse_switch, postorder,
           callback_of, ihl hl])
      | simp [traverse_tree, is_leaf, AstNode.node_type, traverse_switch, postorder,
          callback_of, ihl h.1, ihr h.2]
  | ast_assignment_node p s v ih =>
    simp [traverse_tree, is_leaf, AstNode.node_type, postorder, callback_of, ih h]
  | ast_number_node p v =>
    simp [traverse_tree, is_leaf, AstNode.node_type, postorder, callback_of]
  | ast_symbol_reference_node p s =>
    simp [traverse_tree, is_leaf, AstNode.node_type, postorder, callback_of]
  | ast_symbol_declaration_node p s =>
    simp [traverse_tree, is_leaf, AstNode.node_type, postorder, callback_of]
  | ast_function_node p s a _ => simp [expr_tree] at h
  | ast_function_def_node p s a b _ _ => simp [expr_tree] at h
  | ast_while_node p c w _ _ => simp [expr_tree] at h

/-- The post-order listing has one entry per node. -/
theorem length_postorder (t : AstNode) : (postorder t).length = t.size := by
  induction t with
  | null => rfl
  | ast_node p ty l r ihl ihr =>
    simp only [postorder, AstNode.size, List.length_append, List.length_singleton, ihl, ihr]
    omega
  | ast_assignment_node p s v ih =>
    simp only [postorder, AstNode.size, List.length_append, List.length_singleton, ih]
    omega
  | ast_number_node p v => rfl
  | ast_symbol_reference_node p s => rfl
  | ast_symbol_declaration_node p s => rfl
  | ast_function_node p s a ih =>
    simp only [postorder, AstNode.size, List.length_append, List.length_singleton, ih]
    omega
  | ast_function_def_node p s a b iha ihb =>
    simp only [postorder, AstNode.size, List.length_append, List.length_singleton, iha, ihb]
    omega
  | ast_while_node p c w ihc ihw =>
    simp only [postorder, AstNode.size, List.length_append, List.length_singleton, ihc, ihw]
    omega

/-- The post-order listing is a listing of the nodes of the tree. -/
theorem postorder_perm_nodes (t : AstNode) : (postorder t).Perm t.nodes := by
  induction t with
  | null => simp [postorder, AstNode.nodes]
  | ast_node p ty l r ihl ihr =>
    simpa [postorder, AstNode.nodes] using
      (List.perm_append_singleton (ast_node p ty l r) (postorder l ++ postorder r)).trans
        (List.Perm.cons _ (ihl.append ihr))
  | ast_assignment_node p s v ih =>
    simpa [postorder, AstNode.nodes] using
      (List.perm_append_singleton (ast_assignment_node p s v) (postorder v)).trans
        (List.Perm.cons _ ih)
  | ast_number_node p v => simp [postorder, AstNode.nodes]
  | ast_symbol_reference_node p s => simp [postorder, AstNode.nodes]
  | ast_symbol_declaration_node p s => simp [postorder, AstNode.nodes]
  | ast_function_node p s a ih =>
    simpa [postorder, AstNode.nodes] using
      (List.perm_append_singleton (ast_function_node p s a) (postorder a)).trans
        (List.Perm.cons _ ih)
  | ast_function_def_node p s a b iha ihb =>
    simpa [postorder, AstNode.nodes] using
      (List.perm_append_singleton (ast_function_def_node p s a b)
        (postorder a ++ postorder b)).trans (List.Perm.cons _ (iha.append ihb))
  | ast_while_node p c w ihc ihw =>
    simpa [postorder, AstNode.nodes] using
      (List.perm_append_singleton (ast_while_node p c w)
        (postorder c ++ postorder w)).trans (List.Perm.cons _ (ihc.append ihw))

/-- The traversal of an expression tree has one effect per node. -/
theorem length_traverse_of_expr (t : AstNode) (h : expr_tree t = true) :
    (traverse_tree t).length = t.size := by
  have := congrArg List.length (map_some_traverse_of_expr t h)
  simpa [length_postorder] using this

/-- Every effect of the traversal of an expression tree is an emission. -/
theorem emissions_eq_traverse_of_expr (t : AstNode) (h : expr_tree t = true) :
    emissions t = traverse_tree t := by
  unfold emissions
  induction t with
  | null => rfl
  | ast_node p ty l r ihl ihr =>
    cases ty <;>
      simp only [expr_tree, Bool.and_eq_true, decide_eq_true_eq, Bool.false_eq_true] at h
    all_goals first
      | (rcases h with ⟨hl, rfl⟩
         simp [traverse_tree, is_leaf, AstNode.node_type, traverse_switch,
           Effect.isEmission, ihl hl])
      | simp [traverse_tree, is_leaf, AstNode.node_type, traverse_switch,
          Effect.isEmission, ihl h.1, ihr h.2]
  | ast_assignment_node p s v ih =>
    simp [traverse_tree, is_leaf, AstNode.node_type, Effect.isEmission, ih h]
  | ast_number_node p v => rfl
  | ast_symbol_reference_node p s => rfl
  | ast_symbol_declaration_node p s => rfl
  | ast_function_node p s a _ => simp [expr_tree] at h
  | ast_function_def_node p s a b _ _ => simp [expr_tree] at h
  | ast_while_node p c w _ _ => simp [expr_tree] at h

/-- The absent node is no node of a tree. -/
theorem ne_null_of_mem_nodes (t : AstNode) : ∀ n ∈ t.nodes, n ≠ null := by
  induction t with
  | null => intro n hn; simp [AstNode.nodes] at hn
  | ast_node p ty l r ihl ihr =>
    intro n hn
    simp only [AstNode.nodes, List.mem_cons, List.mem_append] at hn
    rcases hn with rfl | hn | hn
    · exact fun h => AstNode.noConfusion h
    · exact ihl n hn
    · exact ihr n hn
  | ast_assignment_node p s v ih =>
    intro n hn
    simp only [AstNode.nodes, List.mem_cons] at hn
    rcases hn with rfl | hn
    · exact fun h => AstNode.noConfusion h
    · exact ih n hn
  | ast_number_node p v =>
    intro n hn
    simp only [AstNode.nodes, List.mem_singleton] at hn
    subst hn; exact fun h => AstNode.noConfusion h
  | ast_symbol_reference_node p s =>
    intro n hn
    simp only [AstNode.nodes, List.mem_singleton] at hn
    subst hn; exact fun h => AstNode.noConfusion h
  | ast_symbol_declaration_node p s =>
    intro n hn
    simp only [AstNode.nodes, List.mem_singleton] at hn
    subst hn; exact fun h => AstNode.noConfusion h
  | ast_function_node p s a ih =>
    intro n hn
    simp only [AstNode.nodes, List.mem_cons] at hn
    rcases hn with rfl | hn
    · exact fun h => AstNode.noConfusion h
    · exact ih n hn
  | ast_function_def_node p s a b iha ihb =>
    intro n hn
    simp only [AstNode.nodes, List.mem_cons, List.mem_append] at hn
    rcases hn with rfl | hn | hn
    · exact fun h => AstNode.noConfusion h
    · exact iha n hn
    · exact ihb n hn
  | ast_while_node p c w ihc ihw =>
    intro n hn
    simp only [AstNode.nodes, List.mem_cons, List.mem_append] at hn
    rcases hn with rfl | hn | hn
    · exact fun h => AstNode.noConfusion h
    · exact ihc n hn
    · exact ihw n hn

/-- Every node of a tree on which the walker emits for every node is the root
of such a tree. -/
theorem emits_every_node_of_mem_nodes (t : AstNode) (h : emits_every_node t = true) :
    ∀ n ∈ t.nodes, emits_every_node n = true := by
  induction t with
  | null => intro n hn; simp [AstNode.nodes] at hn
  | ast_node p ty l r ihl ihr =>
    intro n hn
    simp only [AstNode.nodes, List.mem_cons, List.mem_append] at hn
    rcases hn with rfl | hn
    · exact h
    · cases ty <;>
        simp only [emits_every_node, Bool.and_eq_true, decide_eq_true_eq,
          Bool.false_eq_true] at h
      all_goals first
        | (rcases h with ⟨rfl, rfl⟩
           simp [AstNode.nodes] at hn)
        | (rcases h with ⟨rfl, hr⟩
           rcases hn with hn | hn
           · simp [AstNode.nodes] at hn
           · exact ihr hr n hn)
        | (rcases h with ⟨hl, rfl⟩
           rcases hn with hn | hn
           · exact ihl hl n hn
           · simp [AstNode.nodes] at hn)
        | (rcases hn with hn | hn
           · exact ihl h.1 n hn
           · exact ihr h.2 n hn)
  | ast_assignment_node p s v ih =>
    intro n hn
    simp only [AstNode.nodes, List.mem_cons] at hn
    rcases hn with rfl | hn
    · exact h
    · exact ih h n hn
  | ast_number_node p v =>
    intro n hn
    simp only [AstNode.nodes, List.mem_singleton] at hn
    subst hn; rfl
  | ast_symbol_reference_node p s =>
    intro n hn
    simp only [AstNode.nodes, List.mem_singleton] at hn
    subst hn; rfl
  | ast_symbol_declaration_node p s =>
    intro n hn
    simp only [AstNode.nodes, List.mem_singleton] at hn
    subst hn; rfl
  | ast_function_node p s a _ =>
    intro n hn
    have ha : a = null := by simpa [emits_every_node] using h
    subst ha
    simp only [AstNode.nodes, List.mem_singleton] at hn
    subst hn; rfl
  | ast_function_def_node p s a b _ _ =>
    intro n hn
    have hab : a = null ∧ b = null := by simpa [emits_every_node] using h
    obtain ⟨ha, hb⟩ := hab
    subst ha hb
    simp only [AstNode.nodes, List.append_nil, List.mem_singleton] at hn
    subst hn; rfl
  | ast_while_node p c w _ _ => simp [emits_every_node] at h

/-- On a tree on which the walker emits for every node, the traversal of a
node of the tree is a contiguous part of the traversal of the tree. -/
theorem traverse_infix_of_mem_nodes (t : AstNode) (h : emits_every_node t = true) :
    ∀ n ∈ t.nodes, traverse_tree n <:+: traverse_tree t := by
  induction t with
  | null => intro n hn; simp [AstNode.nodes] at hn
  | ast_node p ty l r ihl ihr =>
    intro n hn
    simp only [AstNode.nodes, List.mem_cons, List.mem_append] at hn
    rcases hn with rfl | hn
    · exact List.infix_refl _
    · cases ty <;>
        simp only [emits_every_node, Bool.and_eq_true, decide_eq_true_eq,
          Bool.false_eq_true] at h
      all_goals first
        | (rcases h with ⟨rfl, rfl⟩
           simp [AstNode.nodes] at hn)
        | (rcases h with ⟨rfl, hr⟩
           rcases hn with hn | hn
           · simp [AstNode.nodes] at hn
           · exact (ihr hr n hn).trans (List.prefix_append _ _).isInfix)
        | (rcases h with ⟨hl, rfl⟩
           rcases hn with hn | hn
           · exact (ihl hl n hn).trans (List.prefix_append _ _).isInfix
           · simp [AstNode.nodes] at hn)
        | (rcases hn with hn | hn
           · exact (ihl h.1 n hn).trans
               ((List.prefix_append _ _).isInfix.trans (List.prefix_append _ _).isInfix)
           · exact (ihr h.2 n hn).trans (List.infix_append _ _ _))
  | ast_assignment_node p s v ih =>
    intro n hn
    simp only [AstNode.nodes, List.mem_cons] at hn
    rcases hn with rfl | hn
    · exact List.infix_refl _
    · exact (ih h n hn).trans (List.prefix_append _ _).isInfix
  | ast_number_node p v =>
    intro n hn
    simp only [AstNode.nodes, List.mem_singleton] at hn
    subst hn; exact List.infix_refl _
  | ast_symbol_reference_node p s =>
    intro n hn
    simp only [AstNode.nodes, List.mem_singleton] at hn
    subst hn; exact List.infix_refl _
  | ast_symbol_declaration_node p s =>
    intro n hn
    simp only [AstNode.nodes, List.mem_singleton] at hn
    subst hn; exact List.infix_refl _
  | ast_function_node p s a _ =>
    intro n hn
    have ha : a = null := by simpa [emits_every_node] using h
    subst ha
    simp only [AstNode.nodes, List.mem_singleton] at hn
    subst hn; exact List.infix_refl _
  | ast_function_def_node p s a b _ _ =>
    intro n hn
    have hab : a = null ∧ b = null := by simpa [emits_every_node] using h
    obtain ⟨ha, hb⟩ := hab
    subst ha hb
    simp only [AstNode.nodes, List.append_nil, List.mem_singleton] at hn
    subst hn; exact List.infix_refl _
  | ast_while_node p c w _ _ => simp [emits_every_node] at h

/-- The traversal of the root of a tree on which the walker emits for every
node: the traversals of its subtrees in order, then the one emission about the
root. -/
theorem traverse_root_of_emits_every_node (n : AstNode) (h : emits_every_node n = true)
    (hn : n ≠ null) :
    ∃ e, e.isEmission = true ∧ e.node = n ∧
      traverse_tree n = n.children.flatMap traverse_tree ++ [e] := by
  cases n with
  | null => exact absurd rfl hn
  | ast_node p ty l r =>
    cases ty <;>
      simp only [emits_every_node, Bool.and_eq_true, decide_eq_true_eq,
        Bool.false_eq_true] at h
    all_goals first
      | (rcases h with ⟨rfl, rfl⟩
         exact ⟨eval_leaf _, rfl, rfl, rfl⟩)
      | (rcases h with ⟨rfl, rfl⟩
         exact ⟨make_function_call _, rfl, rfl, rfl⟩)
      | (rcases h with ⟨rfl, _⟩
         refine ⟨make_assignment _, rfl, rfl, ?_⟩
         simp [traverse_tree, is_leaf, AstNode.node_type, traverse_switch, AstNode.children])
      | (rcases h with ⟨_, rfl⟩
         refine ⟨make_unary_op _, rfl, rfl, ?_⟩
         simp [traverse_tree, is_leaf, AstNode.node_type, traverse_switch, AstNode.children])
      | (refine ⟨make_binary_op _, rfl, rfl, ?_⟩
         simp [traverse_tree, is_leaf, AstNode.node_type, traverse_switch, AstNode.children])
  | ast_assignment_node p s v =>
    exact ⟨make_assignment _, rfl, rfl, by
      simp [traverse_tree, is_leaf, AstNode.node_type, AstNode.children]⟩
  | ast_number_node p v => exact ⟨eval_leaf _, rfl, rfl, rfl⟩
  | ast_symbol_reference_node p s => exact ⟨eval_leaf _, rfl, rfl, rfl⟩
  | ast_symbol_declaration_node p s => exact ⟨eval_leaf _, rfl, rfl, rfl⟩
  | ast_function_node p s a =>
    have ha : a = null := by simpa [emits_every_node] using h
    subst ha
    exact ⟨make_function_call _, rfl, rfl, rfl⟩
  | ast_function_def_node p s a b =>
    have hab : a = null ∧ b = null := by simpa [emits_every_node] using h
    obtain ⟨ha, hb⟩ := hab
    subst ha hb
    exact ⟨make_function _, rfl, rfl, rfl⟩
  | ast_while_node p c w => simp [emits_every_node] at h

/-- On a tree on which the walker emits for every node there are as many
emissions as nodes. -/
theorem length_emissions_of_emits_every_node (t : AstNode)
    (h : emits_every_node t = true) : (emissions t).length = t.size := by
  unfold emissions
  induction t with
  | null => rfl
  | ast_node p ty l r ihl ihr =>
    cases ty <;>
      simp only [emits_every_node, Bool.and_eq_true, decide_eq_true_eq,
        Bool.false_eq_true] at h
    all_goals first
      | (rcases h with ⟨rfl, rfl⟩
         rfl)
      | (rcases h with ⟨rfl, hr⟩
         specialize ihr hr
         simp only [traverse_tree, is_leaf, AstNode.node_type, traverse_switch, AstNode.size,
           List.nil_append, List.filter_append, List.length_append, List.filter_cons,
           List.filter_nil, List.length_cons, List.length_nil, Effect.isEmission,
           if_true, if_false, Bool.false_eq_true]
         omega)
      | (rcases h with ⟨hl, rfl⟩
         specialize ihl hl
         simp only [traverse_tree, is_leaf, AstNode.node_type, traverse_switch, AstNode.size,
           List.nil_append, List.filter_append, List.length_append, List.filter_cons,
           List.filter_nil, List.length_cons, List.length_nil, Effect.isEmission,
           if_true, if_false, Bool.false_eq_true]
         omega)
      | (specialize ihl h.1
         specialize ihr h.2
         simp only [traverse_tree, is_leaf, AstNode.node_type, traverse_switch, AstNode.size,
           List.nil_append, List.filter_append, List.length_append, List.filter_cons,
           List.filter_nil, List.length_cons, List.length_nil, Effect.isEmission,
           if_true, if_false, Bool.false_eq_true]
         omega)
  | ast_assignment_node p s v ih =>
    specialize ih h
    simp only [traverse_tree, is_leaf, AstNode.node_type, AstNode.size,
      List.nil_append, List.filter_append, List.length_append, List.filter_cons,
      List.filter_nil, List.length_cons, List.length_nil, Effect.isEmission,
      if_true, if_false, Bool.false_eq_true]
    omega
  | ast_number_node p v => rfl
  | ast_symbol_reference_node p s => rfl
  | ast_symbol_declaration_node p s => rfl
  | ast_function_node p s a _ =>
    have ha : a = null := by simpa [emits_every_node] using h
    subst ha
    rfl
  | ast_function_def_node p s a b _ _ =>
    have hab : a = null ∧ b = null := by simpa [emits_every_node] using h
    obtain ⟨ha, hb⟩ := hab
    subst ha hb
    rfl
  | ast_while_node p c w _ _ => simp [emits_every_node] at h

/-- A traversal never emits more often than the tree has nodes. -/
theorem length_emissions_le_size (t : AstNode) : (emissions t).length ≤ t.size := by
  unfold emissions
  induction t with
  | null => simp [traverse_tree]
  | ast_node p ty l r ihl ihr =>
    cases ty <;>
      simp only [traverse_tree, is_leaf, AstNode.node_type, traverse_switch, AstNode.size,
        List.nil_append, List.filter_append, List.length_append, List.filter_cons,
        List.filter_nil, List.length_cons, List.length_nil, Effect.isEmission,
        List.cons_append, if_true, if_false, Bool.false_eq_true] <;> omega
  | ast_assignment_node p s v ih =>
    simp only [traverse_tree, is_leaf, AstNode.node_type, AstNode.size,
      List.nil_append, List.filter_append, List.length_append, List.filter_cons,
      List.filter_nil, List.length_cons, List.length_nil, Effect.isEmission,
      if_true, if_false, Bool.false_eq_true]
    omega
  | ast_number_node p v =>
    simp [traverse_tree, is_leaf, AstNode.node_type, AstNode.size, Effect.isEmission]
  | ast_symbol_reference_node p s =>
    simp [traverse_tree, is_leaf, AstNode.node_type, AstNode.size, Effect.isEmission]
  | ast_symbol_declaration_node p s =>
    simp [traverse_tree, is_leaf, AstNode.node_type, AstNode.size, Effect.isEmission]
  | ast_function_node p s a _ =>
    simp [traverse_tree, is_leaf, AstNode.node_type, AstNode.size, Effect.isEmission]
  | ast_function_def_node p s a b _ ihb =>
    simp only [traverse_tree, is_leaf, AstNode.node_type, AstNode.size,
      List.nil_append, List.filter_append, List.length_append, List.filter_cons,
      List.filter_nil, List.length_cons, List.length_nil, Effect.isEmission,
      if_true, if_false, Bool.false_eq_true]
    omega
  | ast_while_node p c w _ _ =>
    simp [traverse_tree, is_leaf, AstNode.node_type]

/-- What the pass over a plain node frees: some of the subtrees as the case of
the discriminant has it, then the node itself. -/
theorem freed_ast_node_cases (p : Nat) (ty : NodeType) (l r : AstNode) :
    freed (ast_node p ty l r) = freed r ++ freed l ++ [ast_node p ty l r] ∨
    freed (ast_node p ty l r) = freed l ++ [ast_node p ty l r] ∨
    freed (ast_node p ty l r) = freed r ++ [ast_node p ty l r] ∨
    freed (ast_node p ty l r) = [ast_node p ty l r] := by
  cases ty <;> simp [freed, free_ast_tree, free_switch]

/-- No node is freed more often than it occurs in the tree. -/
theorem count_freed_le (t : AstNode) (a : AstNode) :
    (freed t).count a ≤ t.nodes.count a := by
  induction t with
  | null => simp [freed, free_ast_tree]
  | ast_node p ty l r ihl ihr =>
    have hn : (ast_node p ty l r).nodes = [ast_node p ty l r] ++ (l.nodes ++ r.nodes) := rfl
    rw [hn]
    rcases freed_ast_node_cases p ty l r with h | h | h | h <;> rw [h] <;>
      simp only [List.count_append] <;> omega
  | ast_assignment_node p s v ih =>
    have hn : (ast_assignment_node p s v).nodes = [ast_assignment_node p s v] ++ v.nodes := rfl
    have hf : freed (ast_assignment_node p s v) = freed v ++ [ast_assignment_node p s v] := by
      simp [freed, free_ast_tree]
    rw [hn, hf]
    simp only [List.count_append]
    omega
  | ast_number_node p v => simp [freed, free_ast_tree, AstNode.nodes]
  | ast_symbol_reference_node p s => simp [freed, free_ast_tree, AstNode.nodes]
  | ast_symbol_declaration_node p s => simp [freed, free_ast_tree, AstNode.nodes]
  | ast_function_node p s a ih =>
    have hn : (ast_function_node p s a).nodes = [ast_function_node p s a] ++ a.nodes := rfl
    have hf : freed (ast_function_node p s a) = freed a ++ [ast_function_node p s a] := by
      simp [freed, free_ast_tree]
    rw [hn, hf]
    simp only [List.count_append]
    omega
  | ast_function_def_node p s a b iha ihb =>
    have hn : (ast_function_def_node p s a b).nodes =
        [ast_function_def_node p s a b] ++ (a.nodes ++ b.nodes) := rfl
    have hf : freed (ast_function_def_node p s a b) =
        freed a ++ freed b ++ [ast_function_def_node p s a b] := by
      simp [freed, free_ast_tree]
    rw [hn, hf]
    simp only [List.count_append]
    omega
  | ast_while_node p c w ihc ihw =>
    have hn : (ast_while_node p c w).nodes =
        [ast_while_node p c w] ++ (c.nodes ++ w.nodes) := rfl
    have hf : freed (ast_while_node p c w) =
        freed w ++ freed c ++ [ast_while_node p c w] := by
      simp [freed, free_ast_tree]
    rw [hn, hf]
    simp only [List.count_append]
    omega

/-- The freed nodes are, up to order, part of the nodes of the tree. -/
theorem freed_subperm_nodes (t : AstNode) : (freed t).Subperm t.nodes :=
  List.subperm_ext_iff.mpr fun a _ => count_freed_le t a

/-- The root of a tree is the last node the pass frees. -/
theorem getLast_freed (t : AstNode) (h : t ≠ null) : (freed t).getLast? = some t := by
  cases t with
  | null => exact absurd rfl h
  | ast_node p ty l r =>
    rcases freed_ast_node_cases p ty l r with h | h | h | h <;> rw [h] <;> simp
  | ast_assignment_node p s v => simp [freed, free_ast_tree]
  | ast_number_node p v => simp [freed, free_ast_tree]
  | ast_symbol_reference_node p s => simp [freed, free_ast_tree]
  | ast_symbol_declaration_node p s => simp [freed, free_ast_tree]
  | ast_function_node p s a => simp [freed, free_ast_tree]
  | ast_function_def_node p s a b => simp [freed, free_ast_tree]
  | ast_while_node p c w => simp [freed, free_ast_tree]

/-- A run made of two parts stays inside its allocations when both do. -/
theorem in_bounds_append (a b : List Effect) :
    in_bounds (a ++ b) = (in_bounds a && in_bounds b) := by
  simp [in_bounds, List.all_append]

/-- The empty run stays inside its allocations. -/
theorem in_bounds_nil : in_bounds [] = true := rfl

/-- A run stays inside its allocations when its first effect and the rest do. -/
theorem in_bounds_cons (e : Effect) (l : List Effect) :
    in_bounds (e :: l) = (!e.isOutOfBounds && in_bounds l) := by
  simp [in_bounds]

/-- Both passes over a plain node tagged `FUNCTION_DEF_NODE` read outside the
allocation of the node. -/
theorem plain_function_def_out_of_bounds (p : Nat) (l r : AstNode) :
    in_bounds (traverse_tree (new_ast_node p FUNCTION_DEF_NODE l r)) = false ∧
    in_bounds (free_ast_tree (new_ast_node p FUNCTION_DEF_NODE l r)) = false := by
  constructor
  · rfl
  · simp [new_ast_node, free_ast_tree, free_switch, in_bounds, Effect.isOutOfBounds]

/-- The destruction pass over a tree without plain node tagged
`FUNCTION_DEF_NODE` reads no field outside an allocation. -/
theorem in_bounds_free_of_well_allocated (t : AstNode) (h : well_allocated t = true) :
    in_bounds (free_ast_tree t) = true := by
  induction t with
  | null => rfl
  | ast_node p ty l r ihl ihr =>
    simp only [well_allocated, Bool.and_eq_true] at h
    obtain ⟨⟨hty, hl⟩, hr⟩ := h
    specialize ihl hl
    specialize ihr hr
    cases ty <;> first
      | exact absurd hty (by decide)
      | simp [free_ast_tree, free_switch, in_bounds_append, in_bounds_cons, in_bounds_nil,
          ihl, ihr, Effect.isOutOfBounds]
  | ast_assignment_node p s v ih =>
    specialize ih h
    simp [free_ast_tree, in_bounds_append, in_bounds_cons, in_bounds_nil, ih,
      Effect.isOutOfBounds]
  | ast_number_node p v => rfl
  | ast_symbol_reference_node p s => rfl
  | ast_symbol_declaration_node p s => rfl
  | ast_function_node p s a ih =>
    specialize ih h
    simp [free_ast_tree, in_bounds_append, in_bounds_cons, in_bounds_nil, ih,
      Effect.isOutOfBounds]
  | ast_function_def_node p s a b iha ihb =>
    simp only [well_allocated, Bool.and_eq_true] at h
    specialize iha h.1
    specialize ihb h.2
    simp [free_ast_tree, in_bounds_append, in_bounds_cons, in_bounds_nil, iha, ihb,
      Effect.isOutOfBounds]
  | ast_while_node p c w ihc ihw =>
    simp only [well_allocated, Bool.and_eq_true] at h
    specialize ihc h.1
    specialize ihw h.2
    simp [free_ast_tree, in_bounds_append, in_bounds_cons, in_bounds_nil, ihc, ihw,
      Effect.isOutOfBounds]

/-- The traversal of a tree without plain node tagged `FUNCTION_DEF_NODE`
reads no field outside an allocation. -/
theorem in_bounds_traverse_of_well_allocated (t : AstNode) (h : well_allocated t = true) :
    in_bounds (traverse_tree t) = true := by
  induction t with
  | null => rfl
  | ast_node p ty l r ihl ihr =>
    simp only [well_allocated, Bool.and_eq_true] at h
    obtain ⟨⟨hty, hl⟩, hr⟩ := h
    specialize ihl hl
    specialize ihr hr
    cases ty <;> first
      | exact absurd hty (by decide)
      | simp [traverse_tree, is_leaf, AstNode.node_type, traverse_switch, in_bounds_append,
          in_bounds_cons, in_bounds_nil, ihl, ihr, Effect.isOutOfBounds]
  | ast_assignment_node p s v ih =>
    specialize ih h
    simp [traverse_tree, is_leaf, AstNode.node_type, in_bounds_append, in_bounds_cons,
      in_bounds_nil, ih, Effect.isOutOfBounds]
  | ast_number_node p v => rfl
  | ast_symbol_reference_node p s => rfl
  | ast_symbol_declaration_node p s => rfl
  | ast_function_node p s a _ => rfl
  | ast_function_def_node p s a b _ ihb =>
    simp only [well_allocated, Bool.and_eq_true] at h
    specialize ihb h.2
    simp [traverse_tree, is_leaf, AstNode.node_type, in_bounds_cons, ihb,
      Effect.isOutOfBounds]
  | ast_while_node p c w _ _ => rfl

/-! ## Anomalies, emission counts, refinement, double frees -/

/-- A subtree of unrecognized discriminant under a binary operator does not
stop either pass: the other subtree `S` is still traversed and the callback of
the operator invoked, and the destruction pass still runs over `S`, frees the
unrecognized node and frees the operator node; when the pass walks `S` in
full, every node of `S` is freed. -/
theorem anomaly_keeps_sibling (p q : Nat) (ty : NodeType) (v : Int) (bl br S : AstNode)
    (h : ty ∈ binary_ops) :
    (emissions (new_ast_node p ty (new_ast_node q (other v) bl br) S) =
        emissions S ++ [make_binary_op (new_ast_node p ty (new_ast_node q (other v) bl br) S)] ∧
      emissions (new_ast_node p ty S (new_ast_node q (other v) bl br)) =
        emissions S ++
          [make_binary_op (new_ast_node p ty S (new_ast_node q (other v) bl br))]) ∧
    (freed (new_ast_node p ty (new_ast_node q (other v) bl br) S) =
        freed S ++ [new_ast_node q (other v) bl br,
          new_ast_node p ty (new_ast_node q (other v) bl br) S] ∧
      freed (new_ast_node p ty S (new_ast_node q (other v) bl br)) =
        [new_ast_node q (other v) bl br] ++ freed S ++
          [new_ast_node p ty S (new_ast_node q (other v) bl br)]) ∧
    (free_covers S = true → ∀ n ∈ S.nodes,
      n ∈ freed (new_ast_node p ty (new_ast_node q (other v) bl br) S) ∧
      n ∈ freed (new_ast_node p ty S (new_ast_node q (other v) bl br))) := by
  have hbad : traverse_tree (ast_node q (other v) bl br) = [invalid_type (other v)] := rfl
  have hfb : freed (ast_node q (other v) bl br) = [ast_node q (other v) bl br] := rfl
  have hf : ∀ L R, freed (ast_node p ty L R) = freed R ++ freed L ++ [ast_node p ty L R] := by
    intro L R
    simp only [binary_ops, List.mem_cons, List.mem_singleton, List.not_mem_nil, or_false] at h
    rcases h with h | h | h | h | h <;> subst h <;>
      simp [freed, free_ast_tree, free_switch]
  have h1 : freed (new_ast_node p ty (new_ast_node q (other v) bl br) S) =
      freed S ++ [new_ast_node q (other v) bl br,
        new_ast_node p ty (new_ast_node q (other v) bl br) S] := by
    simp only [new_ast_node, hf, hfb, List.append_assoc, List.singleton_append]
  have h2 : freed (new_ast_node p ty S (new_ast_node q (other v) bl br)) =
      [new_ast_node q (other v) bl br] ++ freed S ++
        [new_ast_node p ty S (new_ast_node q (other v) bl br)] := by
    simp only [new_ast_node, hf, hfb]
  refine ⟨⟨?_, ?_⟩, ⟨h1, h2⟩, ?_⟩
  · simp only [emissions, new_ast_node, traverse_ast_node_binary _ _ _ _ h, hbad,
      filter_isEmission_append]
    simp [Effect.isEmission]
  · simp only [emissions, new_ast_node, traverse_ast_node_binary _ _ _ _ h, hbad,
      filter_isEmission_append]
    simp [Effect.isEmission]
  · intro hS n hn
    have hm : n ∈ freed S := (freed_perm_nodes_of_covers S hS).mem_iff.mpr hn
    rw [h1, h2]
    simp [hm]

/-- C15, evaluated on a sum whose left operand has the unrecognized
discriminant 63 and whose right operand `S` is the logical negation of a
literal: the traversal still emits for `S` and for the sum, and the
destruction pass still frees `S`, the unrecognized node and the sum, but the
literal, a node of `S`, is not freed, because `free_ast_tree` has no case for
`LNEG_NODE`. -/
theorem anomaly_sibling_lneg_leaks :
    emissions (new_ast_node 3 ADD_NODE (new_ast_node 2 (other 63) null null)
        (new_ast_node 1 LNEG_NODE (new_ast_number_node 0 7) null)) =
      [eval_leaf (new_ast_number_node 0 7),
       make_unary_op (new_ast_node 1 LNEG_NODE (new_ast_number_node 0 7) null),
       make_binary_op (new_ast_node 3 ADD_NODE (new_ast_node 2 (other 63) null null)
        (new_ast_node 1 LNEG_NODE (new_ast_number_node 0 7) null))] ∧
    free_ast_tree (new_ast_node 3 ADD_NODE (new_ast_node 2 (other 63) null null)
        (new_ast_node 1 LNEG_NODE (new_ast_number_node 0 7) null)) =
      [error_freeing LNEG_NODE,
       free (new_ast_node 1 LNEG_NODE (new_ast_number_node 0 7) null),
       error_freeing (other 63),
       free (new_ast_node 2 (other 63) null null),
       free (new_ast_node 3 ADD_NODE (new_ast_node 2 (other 63) null null)
        (new_ast_node 1 LNEG_NODE (new_ast_number_node 0 7) null))] ∧
    new_ast_number_node 0 7 ∈
      (new_ast_node 1 LNEG_NODE (new_ast_number_node 0 7) null).nodes ∧
    new_ast_number_node 0 7 ∉
      freed (new_ast_node 3 ADD_NODE (new_ast_node 2 (other 63) null null)
        (new_ast_node 1 LNEG_NODE (new_ast_number_node 0 7) null)) := by
  decide

/-- C17 as stated fails on a function call with one argument: the tree has two
nodes and the traversal emits once. -/
theorem emissions_not_one_per_node :
    (new_ast_function_node 1 0 (new_ast_number_node 0 7)).size = 2 ∧
    emissions (new_ast_function_node 1 0 (new_ast_number_node 0 7)) =
      [make_function_call (new_ast_function_node 1 0 (new_ast_number_node 0 7))] ∧
    (emissions (new_ast_function_node 1 0 (new_ast_number_node 0 7))).length ≠
      (new_ast_function_node 1 0 (new_ast_number_node 0 7)).size := by
  decide

/-- C17 as amended: on a tree whose function calls have no argument subtree,
whose function definitions have neither parameter nor body subtree and which
holds no repeat block, statement list or unrecognized discriminant, the
traversal emits once per node (as many emissions as nodes), and for every node
of the tree its traversal is a contiguous part of the whole, made of the
traversals of its subtrees followed by the one emission about the node itself;
on any tree that is traversed without a read outside an allocation, the number
of emissions is at most the number of nodes. -/
theorem one_emission_per_node (t : AstNode) (h : emits_every_node t = true) :
    (emissions t).length = t.size ∧
    (∀ n ∈ t.nodes, traverse_tree n <:+: traverse_tree t ∧
      ∃ e, e.isEmission = true ∧ e.node = n ∧
        traverse_tree n = n.children.flatMap traverse_tree ++ [e]) ∧
    (∀ u : AstNode, in_bounds (traverse_tree u) = true →
      (emissions u).length ≤ u.size) := by
  refine ⟨length_emissions_of_emits_every_node t h, ?_,
    fun u _ => length_emissions_le_size u⟩
  intro n hn
  exact ⟨traverse_infix_of_mem_nodes t h n hn,
    traverse_root_of_emits_every_node n (emits_every_node_of_mem_nodes t h n hn)
      (ne_null_of_mem_nodes t n hn)⟩

/-- Witness of C17 as amended on the assignment of a call without arguments,
x = f(). -/
theorem one_emission_per_node_witness :
    emits_every_node (new_ast_assignment_node 1 9 (new_ast_function_node 0 4 null)) = true ∧
    (emissions (new_ast_assignment_node 1 9 (new_ast_function_node 0 4 null))).length =
      (new_ast_assignment_node 1 9 (new_ast_function_node 0 4 null)).size :=
  ⟨by decide, (one_emission_per_node
    (new_ast_assignment_node 1 9 (new_ast_function_node 0 4 null)) (by decide)).1⟩

/-- C19: on an expression tree the traversal is the post-order listing of the
nodes, each node replaced by the callback of its variant; the listing holds
every node of the tree once, every effect is an emission, and there are as
many effects as nodes. -/
theorem traverse_refines_postorder (t : AstNode) (h : expr_tree t = true) :
    (traverse_tree t).map some = (postorder t).map callback_of ∧
    (postorder t).Perm t.nodes ∧
    emissions t = traverse_tree t ∧
    (traverse_tree t).length = t.size :=
  ⟨map_some_traverse_of_expr t h, postorder_perm_nodes t,
    emissions_eq_traverse_of_expr t h, length_traverse_of_expr t h⟩

/-- Witness of C19 on the assignment x = -(2 * 3). -/
theorem traverse_refines_postorder_witness :
    expr_tree (new_ast_assignment_node 4 9 (new_ast_node 3 UMINUS_NODE
      (new_ast_node 2 MUL_NODE (new_ast_number_node 0 2) (new_ast_number_node 1 3))
      null)) = true ∧
    (traverse_tree (new_ast_assignment_node 4 9 (new_ast_node 3 UMINUS_NODE
      (new_ast_node 2 MUL_NODE (new_ast_number_node 0 2) (new_ast_number_node 1 3))
      null))).map some =
    (postorder (new_ast_assignment_node 4 9 (new_ast_node 3 UMINUS_NODE
      (new_ast_node 2 MUL_NODE (new_ast_number_node 0 2) (new_ast_number_node 1 3))
      null))).map callback_of :=
  ⟨by decide, (traverse_refines_postorder
    (new_ast_assignment_node 4 9 (new_ast_node 3 UMINUS_NODE
      (new_ast_node 2 MUL_NODE (new_ast_number_node 0 2) (new_ast_number_node 1 3))
      null)) (by decide)).1⟩

/-- C20: on a tree whose nodes have pairwise distinct addresses, recognized
discriminants or not, and over which the destruction pass reads no field
outside an allocation, the pass frees no address twice and no node twice,
frees only nodes of the tree, and frees the root last. -/
theorem free_never_twice (t : AstNode) (h : (t.nodes.map AstNode.addr).Nodup)
    (_hb : in_bounds (free_ast_tree t) = true) :
    ((freed t).map AstNode.addr).Nodup ∧
    (freed t).Nodup ∧
    (∀ n ∈ freed t, n ∈ t.nodes) ∧
    (t ≠ null → (freed t).getLast? = some t) := by
  have hsub := freed_subperm_nodes t
  have haddr : ((freed t).map AstNode.addr).Nodup := by
    obtain ⟨l, hperm, hsl⟩ := hsub
    exact ((hperm.map AstNode.addr).nodup_iff).mp ((hsl.map AstNode.addr).nodup h)
  exact ⟨haddr, List.Nodup.of_map _ haddr, fun n hn => hsub.subset hn, getLast_freed t⟩

/-- Witness of C20 on a sum whose left operand is a logical negation and whose
right operand has an unrecognized discriminant. -/
theorem free_never_twice_witness :
    (((new_ast_node 4 ADD_NODE
        (new_ast_node 1 LNEG_NODE (new_ast_number_node 0 7) null)
        (new_ast_node 3 (other 63) (new_ast_number_node 2 8) null)).nodes).map
      AstNode.addr).Nodup ∧
    in_bounds (free_ast_tree (new_ast_node 4 ADD_NODE
        (new_ast_node 1 LNEG_NODE (new_ast_number_node 0 7) null)
        (new_ast_node 3 (other 63) (new_ast_number_node 2 8) null))) = true ∧
    ((freed (new_ast_node 4 ADD_NODE
        (new_ast_node 1 LNEG_NODE (new_ast_number_node 0 7) null)
        (new_ast_node 3 (other 63) (new_ast_number_node 2 8) null))).map
      AstNode.addr).Nodup :=
  ⟨by decide, by decide, (free_never_twice (new_ast_node 4 ADD_NODE
        (new_ast_node 1 LNEG_NODE (new_ast_number_node 0 7) null)
        (new_ast_node 3 (other 63) (new_ast_number_node 2 8) null))
      (by decide) (by decide)).1⟩

end TinyCompiler
